import Mathlib

/- Verification development for the task lifecycle and recurrence model of
   the todo-rs repository (src/task.rs and src/ui/all_tasks.rs).

   Dates are modelled as proleptic Gregorian calendar dates with nonnegative
   years.  The time-of-day and timezone resolution carried by the chrono
   DateTime values play no role in the logic under study (all of it operates
   on the calendar-date component), so they are not modelled; likewise the
   finite year range of chrono is not modelled, so day and month arithmetic
   is total here.  chrono's checked_add_months keeps the day of month and
   clamps it to the last day of the target month when the target month is
   shorter; addMonthsClamped below reproduces that. -/

namespace Todo

/-- Modelled from the spec: the file day_of_week.rs is not among the given
sources; the glossary defines a weekday set as an explicit subset of the
seven weekdays Mon..Sun, so DayOfWeek is the seven-value enumeration in
chrono's order. -/
inductive DayOfWeek where
  | Monday
  | Tuesday
  | Wednesday
  | Thursday
  | Friday
  | Saturday
  | Sunday
deriving DecidableEq

/-- Gregorian leap-year test, as chrono implements for the proleptic
Gregorian calendar. -/
def isLeap (y : Nat) : Prop := y % 4 = 0 ∧ (y % 100 ≠ 0 ∨ y % 400 = 0)

instance (y : Nat) : Decidable (isLeap y) := by
  unfold isLeap; infer_instance

/-- Number of days of month m in year y (m counted 1..12). -/
def daysInMonth (y m : Nat) : Nat :=
  if m = 2 then (if isLeap y then 29 else 28)
  else if m = 4 ∨ m = 6 ∨ m = 9 ∨ m = 11 then 30
  else 31

/-- A calendar date: the date_naive component of a chrono DateTime, with
nonnegative year. -/
structure NDate where
  y : Nat
  m : Nat
  d : Nat
deriving DecidableEq

/-- A date is valid when its month is 1..12 and its day fits the month. -/
def NDate.Valid (dt : NDate) : Prop :=
  1 ≤ dt.m ∧ dt.m ≤ 12 ∧ 1 ≤ dt.d ∧ dt.d ≤ daysInMonth dt.y dt.m

instance (dt : NDate) : Decidable dt.Valid := by
  unfold NDate.Valid; infer_instance

/-- Number of leap years strictly before year y (year 0 itself is leap). -/
def leapsBefore (y : Nat) : Nat := (y + 3) / 4 + (y + 399) / 400 - (y + 99) / 100

/-- Days of year y that lie strictly before the first of month m. -/
def daysBeforeMonth (y m : Nat) : Nat :=
  let l := if isLeap y then 1 else 0
  match m with
  | 1 => 0
  | 2 => 31
  | 3 => 59 + l
  | 4 => 90 + l
  | 5 => 120 + l
  | 6 => 151 + l
  | 7 => 181 + l
  | 8 => 212 + l
  | 9 => 243 + l
  | 10 => 273 + l
  | 11 => 304 + l
  | 12 => 334 + l
  | _ => 0

/-- Linear day count: number of days from Jan 1 of year 0 to the date. -/
def dayNumber (dt : NDate) : Nat :=
  365 * dt.y + leapsBefore dt.y + daysBeforeMonth dt.y dt.m + (dt.d - 1)

/-- Weekday of a linear day count; day 0 (Jan 1 of year 0, proleptic
Gregorian) is a Saturday, as the 400-year cycle of the calendar spans a
multiple of 7 days and Jan 1 of year 2000 was a Saturday. -/
def numToWeekday (n : Nat) : DayOfWeek :=
  match n % 7 with
  | 0 => .Saturday
  | 1 => .Sunday
  | 2 => .Monday
  | 3 => .Tuesday
  | 4 => .Wednesday
  | 5 => .Thursday
  | _ => .Friday

/-- The weekday of a date, as chrono's weekday() computes it. -/
def NDate.weekday (dt : NDate) : DayOfWeek := numToWeekday (dayNumber dt)

/-- The next calendar day. -/
def NDate.nextDay (dt : NDate) : NDate :=
  if dt.d < daysInMonth dt.y dt.m then ⟨dt.y, dt.m, dt.d + 1⟩
  else if dt.m < 12 then ⟨dt.y, dt.m + 1, 1⟩
  else ⟨dt.y + 1, 1, 1⟩

/-- chrono's checked_add_days on the calendar-date component; total in the
unbounded model. -/
def addDays : Nat → NDate → NDate
  | 0, dt => dt
  | n + 1, dt => (addDays n dt).nextDay

/-- chrono's checked_add_months on the calendar-date component: the month
index advances by n and the day is clamped to the length of the target
month; total in the unbounded model. -/
def addMonthsClamped (dt : NDate) (n : Nat) : NDate :=
  let tm := dt.y * 12 + (dt.m - 1) + n
  ⟨tm / 12, tm % 12 + 1, min dt.d (daysInMonth (tm / 12) (tm % 12 + 1))⟩

/-- Strict chronological order on dates (lexicographic on year, month, day:
for valid dates this is the calendar order). -/
def dateLt (a b : NDate) : Prop :=
  a.y < b.y ∨ (a.y = b.y ∧ (a.m < b.m ∨ (a.m = b.m ∧ a.d < b.d)))

instance (a b : NDate) : Decidable (dateLt a b) := by
  unfold dateLt; infer_instance

/-- Modelled from the spec: repeat.rs is absent from the given sources; §3
of the spec lists the recurrence as one of Never, Daily, Weekly, Monthly,
Yearly or an explicit weekday set, and task.rs matches the variant
DaysOfWeek carrying the collection of weekdays. -/
inductive Repeat where
  | Never
  | Daily
  | Weekly
  | Monthly
  | Yearly
  | DaysOfWeek (days : List DayOfWeek)
deriving DecidableEq

/-- The Task record of src/task.rs, with the date reduced to its
calendar-date component. -/
structure Task where
  id : Option Nat
  name : String
  date : NDate
  repeats : Repeat
  description : Option String
  complete : Bool
deriving DecidableEq

/-- The scan of the DaysOfWeek arm of set_complete: for i, i+1, ... over the
given fuel (the source runs i over 1..=7), return the first anchor + i days
whose weekday belongs to days. -/
def scanFrom (days : List DayOfWeek) (anchor : NDate) : Nat → Nat → Option NDate
  | _, 0 => none
  | i, fuel + 1 =>
    if (addDays i anchor).weekday ∈ days then some (addDays i anchor)
    else scanFrom days anchor (i + 1) fuel

/-- Task::set_complete of src/task.rs: marks the receiver complete, computes
the next date from the recurrence, and when one exists returns a clone of
the (now complete) receiver carrying the new date and forced incomplete
state.  The mutation of self is modelled by returning the updated receiver
as the first component. -/
def Task.set_complete (t : Task) : Task × Option Task :=
  let t1 : Task := { t with complete := true }
  let date : Option NDate :=
    match t1.repeats with
    | .DaysOfWeek days => scanFrom days t1.date 1 7
    | .Never => none
    | .Daily => some (addDays 1 t1.date)
    | .Weekly => some (addDays 7 t1.date)
    | .Monthly => some (addMonthsClamped t1.date 1)
    | .Yearly => some (addMonthsClamped t1.date 12)
  match date with
  | some d => (t1, some { t1 with date := d, complete := false })
  | none => (t1, none)

/-- Task::set_incomplete of src/task.rs: clears the flag, never returns a
successor. -/
def Task.set_incomplete (t : Task) : Task × Option Task :=
  ({ t with complete := false }, none)

/-- Task::toggle_complete of src/task.rs. -/
def Task.toggle_complete (t : Task) : Task × Option Task :=
  if t.complete then t.set_incomplete else t.set_complete

/-- Task::get_id of src/task.rs; the panic on a missing id is modelled as
none, a present id as some. -/
def Task.get_id (t : Task) : Option Nat :=
  match t.id with
  | some id => some id
  | none => none

/-- AllTasksPage::groups of src/ui/all_tasks.rs: itertools group_by on the
calendar day, which collects maximal runs of consecutive tasks whose key
agrees. -/
def groupRuns : List Task → List (List Task)
  | [] => []
  | [a] => [[a]]
  | a :: b :: rest =>
    match groupRuns (b :: rest) with
    | [] => [[a]]
    | g :: gs => if a.date = b.date then (a :: g) :: gs else [a] :: g :: gs

/-- The forward scan of next and move_closest: first index (counted from
base) of a task of the list that is not complete. -/
def scanList : List Task → Nat → Option Nat
  | [], _ => none
  | t :: rest, base => if t.complete then scanList rest (base + 1) else some base

/-- First index i with start ≤ i < tasks.length whose task is incomplete. -/
def findIncompleteFrom (tasks : List Task) (start : Nat) : Option Nat :=
  scanList (tasks.drop start) start

/-- The backward scan of prev and move_closest: last index below the bound
whose task is incomplete (the callers keep the bound at most the length, so
the out-of-range lookup that would panic in the source cannot arise; the
model skips it). -/
def scanBack (tasks : List Task) : Nat → Option Nat
  | 0 => none
  | i + 1 =>
    match tasks[i]? with
    | some t => if t.complete then scanBack tasks i else some i
    | none => scanBack tasks i

/-- AllTasksPage::next of src/ui/all_tasks.rs, as a function of the task
list, the show_hidden flag and the current index; returns the new current
index. -/
def nextIdx (tasks : List Task) (showHidden : Bool) (cur : Option Nat) : Option Nat :=
  let len := tasks.length
  match cur with
  | none => if 0 < len then some 0 else none
  | some curIdx =>
    if showHidden then
      if curIdx + 1 < len then some (curIdx + 1) else some curIdx
    else
      match findIncompleteFrom tasks (curIdx + 1) with
      | some i => some i
      | none => some curIdx

/-- AllTasksPage::prev of src/ui/all_tasks.rs.  With show_hidden set and a
positive index the source steps to (curIdx + len - 1) mod len; otherwise it
scans backward over the incomplete tasks and keeps the index when none is
found. -/
def prevIdx (tasks : List Task) (showHidden : Bool) (cur : Option Nat) : Option Nat :=
  let len := tasks.length
  match cur with
  | none => if 0 < len then some (len - 1) else none
  | some curIdx =>
    if showHidden ∧ 0 < curIdx then some ((curIdx + len - 1) % len)
    else
      match scanBack tasks curIdx with
      | some i => some i
      | none => some curIdx

/-- AllTasksPage::move_closest of src/ui/all_tasks.rs: forward scan from the
current index inclusive, then backward scan, then clear the selection. -/
def moveClosest (tasks : List Task) (cur : Option Nat) : Option Nat :=
  match cur with
  | none => if 0 < tasks.length then some 0 else none
  | some curIdx =>
    match findIncompleteFrom tasks curIdx with
    | some i => some i
    | none =>
      match scanBack tasks curIdx with
      | some i => some i
      | none => none

theorem daysInMonth_pos (y m : Nat) : 1 ≤ daysInMonth y m := by
  unfold daysInMonth; split_ifs <;> omega

theorem nextDay_valid {dt : NDate} (h : dt.Valid) : dt.nextDay.Valid := by
  obtain ⟨y, m, d⟩ := dt
  obtain ⟨h1, h2, h3, h4⟩ := h
  dsimp only at h1 h2 h3 h4
  unfold NDate.nextDay
  dsimp only
  split_ifs with hd hm
  · unfold NDate.Valid
    dsimp only
    omega
  · have hp := daysInMonth_pos y (m + 1)
    unfold NDate.Valid
    dsimp only
    omega
  · have hp := daysInMonth_pos (y + 1) 1
    unfold NDate.Valid
    dsimp only
    omega

theorem daysBeforeMonth_add (y m : Nat) (h1 : 1 ≤ m) (h2 : m ≤ 11) :
    daysBeforeMonth y (m + 1) = daysBeforeMonth y m + daysInMonth y m := by
  interval_cases m <;> by_cases hL : isLeap y <;>
    simp [daysBeforeMonth, daysInMonth, hL]

theorem leapsBefore_succ (y : Nat) :
    leapsBefore (y + 1) = leapsBefore y + (if isLeap y then 1 else 0) := by
  by_cases hL : isLeap y
  · simp only [hL, if_true]
    unfold leapsBefore
    unfold isLeap at hL
    omega
  · simp only [hL, if_false]
    unfold leapsBefore
    unfold isLeap at hL
    omega

theorem dayNumber_nextDay {dt : NDate} (h : dt.Valid) :
    dayNumber dt.nextDay = dayNumber dt + 1 := by
  obtain ⟨y, m, d⟩ := dt
  obtain ⟨h1, h2, h3, h4⟩ := h
  dsimp only at h1 h2 h3 h4
  unfold NDate.nextDay
  dsimp only
  split_ifs with hd hm
  · unfold dayNumber
    dsimp only
    omega
  · have hb := daysBeforeMonth_add y m h1 (by omega)
    unfold dayNumber
    dsimp only
    omega
  · have hm' : m = 12 := by omega
    subst hm'
    have h31 : daysInMonth y 12 = 31 := by simp [daysInMonth]
    have hd' : d = 31 := by omega
    subst hd'
    have hls := leapsBefore_succ y
    unfold dayNumber daysBeforeMonth
    dsimp only
    by_cases hL : isLeap y <;>
      simp only [hL, if_true, if_false] at hls ⊢ <;> omega

theorem addDays_valid (n : Nat) {dt : NDate} (h : dt.Valid) : (addDays n dt).Valid := by
  induction n with
  | zero => exact h
  | succ k ih => exact nextDay_valid ih

theorem dayNumber_addDays (n : Nat) {dt : NDate} (h : dt.Valid) :
    dayNumber (addDays n dt) = dayNumber dt + n := by
  induction n with
  | zero => rfl
  | succ k ih =>
    have := dayNumber_nextDay (addDays_valid k h)
    simp only [addDays]
    omega

theorem dateLt_trans {a b c : NDate} (hab : dateLt a b) (hbc : dateLt b c) :
    dateLt a c := by
  unfold dateLt at *
  omega

theorem nextDay_lt {dt : NDate} (h : dt.Valid) : dateLt dt dt.nextDay := by
  obtain ⟨y, m, d⟩ := dt
  unfold NDate.nextDay dateLt
  dsimp only
  split_ifs <;> dsimp only <;> omega

theorem addDays_lt {dt : NDate} (h : dt.Valid) (n : Nat) (hn : 1 ≤ n) :
    dateLt dt (addDays n dt) := by
  induction n with
  | zero => exact absurd hn (by omega)
  | succ k ih =>
    rcases Nat.eq_zero_or_pos k with hk | hk
    · subst hk
      exact nextDay_lt h
    · exact dateLt_trans (ih hk) (nextDay_lt (addDays_valid k h))

/-- Numeric value of a weekday, inverse to numToWeekday on 0..6. -/
def dowNum : DayOfWeek → Nat
  | .Saturday => 0
  | .Sunday => 1
  | .Monday => 2
  | .Tuesday => 3
  | .Wednesday => 4
  | .Thursday => 5
  | .Friday => 6

theorem dowNum_numToWeekday (n : Nat) : dowNum (numToWeekday n) = n % 7 := by
  have h7 : n % 7 < 7 := Nat.mod_lt _ (by omega)
  rcases hn : n % 7 with _ | _ | _ | _ | _ | _ | _ | k <;>
    first
    | (simp [numToWeekday, hn, dowNum]; done)
    | omega

theorem numToWeekday_dowNum (w : DayOfWeek) : numToWeekday (dowNum w) = w := by
  cases w <;> rfl

theorem numToWeekday_congr {a b : Nat} (h : a % 7 = b % 7) :
    numToWeekday a = numToWeekday b := by
  unfold numToWeekday
  rw [h]

theorem numToWeekday_ne {a b : Nat} (h : a % 7 ≠ b % 7) :
    numToWeekday a ≠ numToWeekday b := by
  intro he
  exact h (by rw [← dowNum_numToWeekday a, ← dowNum_numToWeekday b, he])

theorem weekday_addDays (n : Nat) {dt : NDate} (h : dt.Valid) :
    (addDays n dt).weekday = numToWeekday (dayNumber dt + n) := by
  unfold NDate.weekday
  rw [dayNumber_addDays n h]

theorem exists_weekday_offset {dt : NDate} (h : dt.Valid) (w : DayOfWeek) :
    ∃ i, 1 ≤ i ∧ i ≤ 7 ∧ (addDays i dt).weekday = w := by
  have hr : dayNumber dt % 7 < 7 := Nat.mod_lt _ (by omega)
  have hk : dowNum w < 7 := by cases w <;> decide
  by_cases hc : dayNumber dt % 7 < dowNum w
  · refine ⟨dowNum w - dayNumber dt % 7, by omega, by omega, ?_⟩
    rw [weekday_addDays _ h]
    have he : numToWeekday (dayNumber dt + (dowNum w - dayNumber dt % 7)) =
        numToWeekday (dowNum w) := numToWeekday_congr (by omega)
    rw [he, numToWeekday_dowNum]
  · refine ⟨dowNum w + 7 - dayNumber dt % 7, by omega, by omega, ?_⟩
    rw [weekday_addDays _ h]
    have he : numToWeekday (dayNumber dt + (dowNum w + 7 - dayNumber dt % 7)) =
        numToWeekday (dowNum w) := numToWeekday_congr (by omega)
    rw [he, numToWeekday_dowNum]

theorem addMonthsClamped_lt {dt : NDate} (h : dt.Valid) (n : Nat) (hn : 1 ≤ n) :
    dateLt dt (addMonthsClamped dt n) := by
  obtain ⟨y, m, d⟩ := dt
  obtain ⟨h1, h2, h3, h4⟩ := h
  dsimp only at h1 h2
  unfold addMonthsClamped dateLt
  dsimp only
  omega

theorem addMonthsClamped_one_spec {dt : NDate} (h : dt.Valid) :
    (addMonthsClamped dt 1).y = (if dt.m = 12 then dt.y + 1 else dt.y) ∧
    (addMonthsClamped dt 1).m = (if dt.m = 12 then 1 else dt.m + 1) ∧
    (addMonthsClamped dt 1).d =
      min dt.d (daysInMonth (addMonthsClamped dt 1).y (addMonthsClamped dt 1).m) := by
  obtain ⟨y, m, d⟩ := dt
  obtain ⟨h1, h2, -, -⟩ := h
  dsimp only at h1 h2
  unfold addMonthsClamped
  refine ⟨?_, ?_, rfl⟩ <;> dsimp only <;> split_ifs <;> omega

theorem addMonthsClamped_twelve_spec {dt : NDate} (h : dt.Valid) :
    (addMonthsClamped dt 12).y = dt.y + 1 ∧
    (addMonthsClamped dt 12).m = dt.m ∧
    (addMonthsClamped dt 12).d =
      min dt.d (daysInMonth (addMonthsClamped dt 12).y (addMonthsClamped dt 12).m) := by
  obtain ⟨y, m, d⟩ := dt
  obtain ⟨h1, h2, -, -⟩ := h
  dsimp only at h1 h2
  unfold addMonthsClamped
  refine ⟨?_, ?_, rfl⟩ <;> dsimp only <;> omega

theorem scanFrom_none_forall {days : List DayOfWeek} {dt : NDate} :
    ∀ fuel i, scanFrom days dt i fuel = none →
      ∀ j, i ≤ j → j < i + fuel → (addDays j dt).weekday ∉ days := by
  intro fuel
  induction fuel with
  | zero =>
    intro i _ j h1 h2
    exfalso
    omega
  | succ f ih =>
    intro i hscan j h1 h2
    unfold scanFrom at hscan
    by_cases hmem : (addDays i dt).weekday ∈ days
    · rw [if_pos hmem] at hscan
      cases hscan
    · rw [if_neg hmem] at hscan
      rcases Nat.eq_or_lt_of_le h1 with rfl | hlt
      · exact hmem
      · exact ih (i + 1) hscan j hlt (by omega)

theorem forall_scanFrom_none {days : List DayOfWeek} {dt : NDate} :
    ∀ fuel i, (∀ j, i ≤ j → j < i + fuel → (addDays j dt).weekday ∉ days) →
      scanFrom days dt i fuel = none := by
  intro fuel
  induction fuel with
  | zero => intro i _; rfl
  | succ f ih =>
    intro i hall
    unfold scanFrom
    rw [if_neg (hall i (Nat.le_refl i) (by omega))]
    exact ih (i + 1) fun j h1 h2 => hall j (by omega) (by omega)

theorem scanFrom_some_spec {days : List DayOfWeek} {dt : NDate} :
    ∀ fuel i r, scanFrom days dt i fuel = some r →
      ∃ k, i ≤ k ∧ k < i + fuel ∧ r = addDays k dt ∧ (addDays k dt).weekday ∈ days ∧
        ∀ j, i ≤ j → j < k → (addDays j dt).weekday ∉ days := by
  intro fuel
  induction fuel with
  | zero => intro i r h; simp [scanFrom] at h
  | succ f ih =>
    intro i r h
    unfold scanFrom at h
    split_ifs at h with hmem
    · refine ⟨i, Nat.le_refl i, by omega, (Option.some.inj h).symm, hmem, ?_⟩
      intro j h1 h2
      exfalso
      omega
    · obtain ⟨k, hk1, hk2, hk3, hk4, hk5⟩ := ih (i + 1) r h
      refine ⟨k, by omega, by omega, hk3, hk4, ?_⟩
      intro j hj1 hj2
      rcases Nat.eq_or_lt_of_le hj1 with rfl | hlt
      · exact hmem
      · exact hk5 j hlt hj2

theorem scanFrom_first {days : List DayOfWeek} {dt : NDate} :
    ∀ fuel i k, i ≤ k → k < i + fuel → (addDays k dt).weekday ∈ days →
      (∀ j, i ≤ j → j < k → (addDays j dt).weekday ∉ days) →
      scanFrom days dt i fuel = some (addDays k dt) := by
  intro fuel
  induction fuel with
  | zero =>
    intro i k h1 h2 _ _
    exfalso
    omega
  | succ f ih =>
    intro i k h1 h2 h3 h4
    unfold scanFrom
    rcases Nat.eq_or_lt_of_le h1 with rfl | hlt
    · rw [if_pos h3]
    · rw [if_neg (h4 i (Nat.le_refl i) hlt)]
      exact ih (i + 1) k hlt (by omega) h3 fun j hj1 hj2 => h4 j (by omega) hj2

theorem set_complete_never {t : Task} (h : t.repeats = .Never) :
    t.set_complete = ({ t with complete := true }, none) := by
  unfold Task.set_complete
  dsimp only
  rw [h]

theorem set_complete_daily {t : Task} (h : t.repeats = .Daily) :
    t.set_complete = ({ t with complete := true },
      some { t with date := addDays 1 t.date, complete := false }) := by
  unfold Task.set_complete
  dsimp only
  rw [h]

theorem set_complete_weekly {t : Task} (h : t.repeats = .Weekly) :
    t.set_complete = ({ t with complete := true },
      some { t with date := addDays 7 t.date, complete := false }) := by
  unfold Task.set_complete
  dsimp only
  rw [h]

theorem set_complete_monthly {t : Task} (h : t.repeats = .Monthly) :
    t.set_complete = ({ t with complete := true },
      some { t with date := addMonthsClamped t.date 1, complete := false }) := by
  unfold Task.set_complete
  dsimp only
  rw [h]

theorem set_complete_yearly {t : Task} (h : t.repeats = .Yearly) :
    t.set_complete = ({ t with complete := true },
      some { t with date := addMonthsClamped t.date 12, complete := false }) := by
  unfold Task.set_complete
  dsimp only
  rw [h]

theorem set_complete_dow {t : Task} {days : List DayOfWeek}
    (h : t.repeats = .DaysOfWeek days) :
    t.set_complete = ({ t with complete := true },
      (scanFrom days t.date 1 7).map
        fun d => { t with date := d, complete := false }) := by
  unfold Task.set_complete
  dsimp only
  rw [h]
  dsimp only
  cases hs : scanFrom days t.date 1 7 <;> rfl

theorem scanList_none_iff (l : List Task) :
    ∀ base, (scanList l base = none ↔ ∀ t ∈ l, t.complete = true) := by
  induction l with
  | nil => intro base; simp [scanList]
  | cons t rest ih =>
    intro base
    unfold scanList
    by_cases hc : t.complete
    · rw [if_pos hc, ih (base + 1)]
      simp [hc]
    · rw [if_neg hc]
      simp only [Bool.not_eq_true] at hc
      simp [hc]

theorem scanList_some_spec (l : List Task) :
    ∀ base j, scanList l base = some j →
      ∃ k, j = base + k ∧ k < l.length ∧
        (∃ t, l[k]? = some t ∧ t.complete = false) ∧
        ∀ m, m < k → ∀ u, l[m]? = some u → u.complete = true := by
  induction l with
  | nil => intro base j h; simp [scanList] at h
  | cons t rest ih =>
    intro base j h
    unfold scanList at h
    by_cases hc : t.complete
    · rw [if_pos hc] at h
      obtain ⟨k, hk1, hk2, ⟨u, hu1, hu2⟩, hk4⟩ := ih (base + 1) j h
      refine ⟨k + 1, by omega, by simp only [List.length_cons]; omega,
        ⟨u, by simpa using hu1, hu2⟩, ?_⟩
      intro m hm u' hu'
      cases m with
      | zero =>
        simp only [List.getElem?_cons_zero, Option.some.injEq] at hu'
        rw [← hu']
        exact hc
      | succ m2 => exact hk4 m2 (by omega) u' (by simpa using hu')
    · rw [if_neg hc] at h
      have hj : j = base := (Option.some.inj h).symm
      refine ⟨0, by omega, by simp, ⟨t, by simp, by simpa using hc⟩, ?_⟩
      intro m hm
      exfalso
      omega

theorem scanList_first (l : List Task) :
    ∀ base k t, l[k]? = some t → t.complete = false →
      (∀ m, m < k → ∀ u, l[m]? = some u → u.complete = true) →
      scanList l base = some (base + k) := by
  induction l with
  | nil => intro base k t ht _ _; simp at ht
  | cons a rest ih =>
    intro base k t ht hinc hmin
    unfold scanList
    cases k with
    | zero =>
      simp only [List.getElem?_cons_zero, Option.some.injEq] at ht
      rw [if_neg (by rw [ht]; simp [hinc])]
      simp
    | succ k2 =>
      have ha : a.complete = true := hmin 0 (by omega) a (by simp)
      rw [if_pos ha]
      have := ih (base + 1) k2 t (by simpa using ht) hinc
        (fun m hm u hu => hmin (m + 1) (by omega) u (by simpa using hu))
      rw [this]
      congr 1
      omega

theorem scanBack_none_iff (tasks : List Task) :
    ∀ bound, (scanBack tasks bound = none ↔
      ∀ j, j < bound → ∀ t, tasks[j]? = some t → t.complete = true) := by
  intro bound
  induction bound with
  | zero => simp [scanBack]
  | succ i ih =>
    unfold scanBack
    cases ht : tasks[i]? with
    | none =>
      dsimp only
      rw [ih]
      constructor
      · intro hall j hj t htj
        rcases Nat.lt_succ_iff_lt_or_eq.mp hj with hlt | rfl
        · exact hall j hlt t htj
        · rw [ht] at htj
          cases htj
      · intro hall j hj t htj
        exact hall j (by omega) t htj
    | some t =>
      dsimp only
      by_cases hc : t.complete
      · rw [if_pos hc, ih]
        constructor
        · intro hall j hj u huj
          rcases Nat.lt_succ_iff_lt_or_eq.mp hj with hlt | rfl
          · exact hall j hlt u huj
          · rw [ht] at huj
            rw [← Option.some.inj huj]
            exact hc
        · intro hall j hj u huj
          exact hall j (by omega) u huj
      · rw [if_neg hc]
        constructor
        · intro hfalse
          cases hfalse
        · intro hall
          exact absurd (hall i (by omega) t ht) hc

theorem scanBack_some_spec (tasks : List Task) :
    ∀ bound j, scanBack tasks bound = some j →
      j < bound ∧ (∃ t, tasks[j]? = some t ∧ t.complete = false) ∧
        ∀ m, j < m → m < bound → ∀ u, tasks[m]? = some u → u.complete = true := by
  intro bound
  induction bound with
  | zero => intro j h; simp [scanBack] at h
  | succ i ih =>
    intro j h
    unfold scanBack at h
    cases ht : tasks[i]? with
    | none =>
      rw [ht] at h
      dsimp only at h
      obtain ⟨h1, h2, h3⟩ := ih j h
      refine ⟨by omega, h2, ?_⟩
      intro m hm1 hm2 u hu
      rcases Nat.lt_succ_iff_lt_or_eq.mp hm2 with hlt | rfl
      · exact h3 m hm1 hlt u hu
      · rw [ht] at hu
        cases hu
    | some t =>
      rw [ht] at h
      dsimp only at h
      by_cases hc : t.complete
      · rw [if_pos hc] at h
        obtain ⟨h1, h2, h3⟩ := ih j h
        refine ⟨by omega, h2, ?_⟩
        intro m hm1 hm2 u hu
        rcases Nat.lt_succ_iff_lt_or_eq.mp hm2 with hlt | rfl
        · exact h3 m hm1 hlt u hu
        · rw [ht] at hu
          rw [← Option.some.inj hu]
          exact hc
      · rw [if_neg hc] at h
        have hj : j = i := (Option.some.inj h).symm
        subst hj
        refine ⟨by omega, ⟨t, ht, by simpa using hc⟩, ?_⟩
        intro m hm1 hm2
        exfalso
        omega

theorem scanBack_first (tasks : List Task) :
    ∀ bound k t, k < bound → tasks[k]? = some t → t.complete = false →
      (∀ m, k < m → m < bound → ∀ u, tasks[m]? = some u → u.complete = true) →
      scanBack tasks bound = some k := by
  intro bound
  induction bound with
  | zero =>
    intro k t h _ _ _
    exfalso
    omega
  | succ i ih =>
    intro k t hk ht hinc hmin
    unfold scanBack
    rcases Nat.lt_succ_iff_lt_or_eq.mp hk with hlt | rfl
    · have hstep : scanBack tasks i = some k :=
        ih k t hlt ht hinc fun m hm1 hm2 u hu => hmin m hm1 (by omega) u hu
      cases hti : tasks[i]? with
      | none =>
        dsimp only
        exact hstep
      | some u =>
        dsimp only
        rw [if_pos (hmin i hlt (by omega) u hti)]
        exact hstep
    · rw [ht]
      dsimp only
      rw [if_neg (by simp [hinc])]

/-- Adjacent groups of a run partition carry different calendar days. -/
def SepRuns : List (List Task) → Prop
  | [] => True
  | [_] => True
  | g :: h :: rest => (∀ x ∈ g, ∀ y ∈ h, x.date ≠ y.date) ∧ SepRuns (h :: rest)

theorem groupRuns_cons (a : Task) (rest : List Task) :
    ∃ tl gs, groupRuns (a :: rest) = (a :: tl) :: gs := by
  induction rest generalizing a with
  | nil => exact ⟨[], [], rfl⟩
  | cons b rest2 ih =>
    obtain ⟨tl, gs, hb⟩ := ih b
    unfold groupRuns
    rw [hb]
    dsimp only
    by_cases hd : a.date = b.date
    · rw [if_pos hd]
      exact ⟨b :: tl, gs, rfl⟩
    · rw [if_neg hd]
      exact ⟨[], (b :: tl) :: gs, rfl⟩

theorem groupRuns_flatten (l : List Task) : (groupRuns l).flatten = l := by
  induction l with
  | nil => rfl
  | cons a rest ih =>
    cases rest with
    | nil => rfl
    | cons b rest2 =>
      obtain ⟨tl, gs, hb⟩ := groupRuns_cons b rest2
      unfold groupRuns
      rw [hb] at ih ⊢
      dsimp only
      by_cases hd : a.date = b.date
      · rw [if_pos hd]
        simp only [List.flatten_cons, List.cons_append] at ih ⊢
        rw [ih]
      · rw [if_neg hd]
        simp only [List.flatten_cons, List.cons_append, List.nil_append] at ih ⊢
        rw [ih]

theorem groupRuns_groups_sound (l : List Task) :
    (∀ g ∈ groupRuns l, g ≠ [] ∧ ∀ x ∈ g, ∀ y ∈ g, x.date = y.date) ∧
      SepRuns (groupRuns l) := by
  induction l with
  | nil => exact ⟨fun g hg => absurd hg (by simp [groupRuns]), trivial⟩
  | cons a rest ih =>
    cases rest with
    | nil =>
      refine ⟨?_, trivial⟩
      intro g hg
      simp only [groupRuns, List.mem_singleton] at hg
      subst hg
      exact ⟨by simp, by intro x hx y hy; simp at hx hy; rw [hx, hy]⟩
    | cons b rest2 =>
      obtain ⟨tl, gs, hb⟩ := groupRuns_cons b rest2
      obtain ⟨ihg, ihs⟩ := ih
      rw [hb] at ihg ihs
      have hbtl : ∀ x ∈ b :: tl, ∀ y ∈ b :: tl, x.date = y.date :=
        (ihg (b :: tl) (by simp)).2
      unfold groupRuns
      rw [hb]
      dsimp only
      by_cases hd : a.date = b.date
      · rw [if_pos hd]
        constructor
        · intro g hg
          rcases List.mem_cons.mp hg with rfl | hg2
          · refine ⟨by simp, ?_⟩
            intro x hx y hy
            have key : ∀ z ∈ a :: b :: tl, z.date = b.date := by
              intro z hz
              rcases List.mem_cons.mp hz with rfl | hz2
              · exact hd
              · exact hbtl z hz2 b (by simp)
            rw [key x hx, key y hy]
          · exact ihg g (by simp [hg2])
        · cases gs with
          | nil => trivial
          | cons g2 gs2 =>
            obtain ⟨hsep, hrest⟩ := ihs
            refine ⟨?_, hrest⟩
            intro x hx y hy
            rcases List.mem_cons.mp hx with rfl | hx2
            · rw [hd]
              exact hsep b (by simp) y hy
            · exact hsep x hx2 y hy
      · rw [if_neg hd]
        constructor
        · intro g hg
          rcases List.mem_cons.mp hg with rfl | hg2
          · exact ⟨by simp, by intro x hx y hy; simp at hx hy; rw [hx, hy]⟩
          · exact ihg g hg2
        · refine ⟨?_, ihs⟩
          intro x hx y hy
          simp only [List.mem_singleton] at hx
          subst hx
          have : y.date = b.date := hbtl y hy b (by simp)
          rw [this]
          exact hd

theorem set_complete_fst (t : Task) :
    (t.set_complete).1 = { t with complete := true } := by
  cases hr : t.repeats with
  | Never => rw [set_complete_never hr, hr]
  | Daily => rw [set_complete_daily hr, hr]
  | Weekly => rw [set_complete_weekly hr, hr]
  | Monthly => rw [set_complete_monthly hr, hr]
  | Yearly => rw [set_complete_yearly hr, hr]
  | DaysOfWeek days => rw [set_complete_dow hr, hr]

theorem set_complete_snd_fields {t s : Task} (hs : (t.set_complete).2 = some s) :
    s.id = t.id ∧ s.name = t.name ∧ s.repeats = t.repeats ∧
      s.description = t.description ∧ s.complete = false := by
  cases hr : t.repeats with
  | Never =>
    rw [set_complete_never hr] at hs
    cases hs
  | Daily =>
    rw [set_complete_daily hr] at hs
    rw [← Option.some.inj hs]
    exact ⟨rfl, rfl, hr, rfl, rfl⟩
  | Weekly =>
    rw [set_complete_weekly hr] at hs
    rw [← Option.some.inj hs]
    exact ⟨rfl, rfl, hr, rfl, rfl⟩
  | Monthly =>
    rw [set_complete_monthly hr] at hs
    rw [← Option.some.inj hs]
    exact ⟨rfl, rfl, hr, rfl, rfl⟩
  | Yearly =>
    rw [set_complete_yearly hr] at hs
    rw [← Option.some.inj hs]
    exact ⟨rfl, rfl, hr, rfl, rfl⟩
  | DaysOfWeek days =>
    rw [set_complete_dow hr] at hs
    cases hsc : scanFrom days t.date 1 7 with
    | none =>
      rw [hsc] at hs
      cases hs
    | some r =>
      rw [hsc] at hs
      dsimp only [Option.map] at hs
      rw [← Option.some.inj hs]
      exact ⟨rfl, rfl, hr, rfl, rfl⟩

/-- Concrete sample tasks used in the closed instances below. -/
def taskMonA : Task := ⟨some 1, "a", ⟨2024, 1, 1⟩, Repeat.Never, none, false⟩

def taskMonB : Task := ⟨some 2, "b", ⟨2024, 1, 1⟩, Repeat.Never, none, false⟩

def taskTueC : Task := ⟨some 3, "c", ⟨2024, 1, 2⟩, Repeat.Never, none, false⟩

def taskMonD : Task := ⟨some 4, "d", ⟨2024, 1, 1⟩, Repeat.Never, none, false⟩

def taskComplete : Task := ⟨some 5, "e", ⟨2024, 1, 1⟩, Repeat.Never, none, true⟩

/-- A sample task with the given date and recurrence. -/
def mkTask (dt : NDate) (r : Repeat) : Task := ⟨some 1, "t", dt, r, none, false⟩

/-- C1 counterexample: completing a Monthly task anchored on Jan 31 2023,
whose day of month does not exist in February, does return a successor, dated
Feb 28 2023 with the day clamped to the end of the shorter month, instead of
reporting no next date as the claim states. -/
theorem c1_counterexample :
    (Task.set_complete (mkTask ⟨2023, 1, 31⟩ Repeat.Monthly)).2 ≠ none ∧
      ((Task.set_complete (mkTask ⟨2023, 1, 31⟩ Repeat.Monthly)).2.map Task.date) =
        some ⟨2023, 2, 28⟩ := by
  refine ⟨by decide, by decide⟩

/-- C1 (amended): for every valid anchor date, completing a Monthly task
yields a successor dated in the following calendar month whose day is the
minimum of the anchor day and that month's length (clamped, never rejected),
and completing a Yearly task yields a successor one calendar year later with
the same clamping policy. -/
theorem c1_monthly_yearly_clamp (t : Task) (hv : t.date.Valid) :
    (t.repeats = Repeat.Monthly →
      ∃ s, (t.set_complete).2 = some s ∧
        s.date.y = (if t.date.m = 12 then t.date.y + 1 else t.date.y) ∧
        s.date.m = (if t.date.m = 12 then 1 else t.date.m + 1) ∧
        s.date.d = min t.date.d (daysInMonth s.date.y s.date.m)) ∧
    (t.repeats = Repeat.Yearly →
      ∃ s, (t.set_complete).2 = some s ∧
        s.date.y = t.date.y + 1 ∧ s.date.m = t.date.m ∧
        s.date.d = min t.date.d (daysInMonth s.date.y s.date.m)) := by
  constructor
  · intro hr
    obtain ⟨hy, hm, hd⟩ := addMonthsClamped_one_spec hv
    exact ⟨{ t with date := addMonthsClamped t.date 1, complete := false },
      by rw [set_complete_monthly hr], hy, hm, hd⟩
  · intro hr
    obtain ⟨hy, hm, hd⟩ := addMonthsClamped_twelve_spec hv
    exact ⟨{ t with date := addMonthsClamped t.date 12, complete := false },
      by rw [set_complete_yearly hr], hy, hm, hd⟩

/-- C1 witness: the amended theorem at the Jan 31 2023 Monthly task. -/
theorem c1_witness :
    (NDate.Valid ⟨2023, 1, 31⟩) ∧
      ∃ s, (Task.set_complete (mkTask ⟨2023, 1, 31⟩ Repeat.Monthly)).2 = some s := by
  refine ⟨by decide, ?_⟩
  obtain ⟨s, hs, -, -, -⟩ :=
    (c1_monthly_yearly_clamp (mkTask ⟨2023, 1, 31⟩ Repeat.Monthly) (by decide)).1 rfl
  exact ⟨s, hs⟩

/-- C2 counterexample: a task whose recurrence is the empty weekday set has a
non-Never recurrence and a valid anchor, yet set_complete returns no
successor, against the claim that every non-Never recurrence produces one. -/
theorem c2_counterexample :
    (mkTask ⟨2024, 1, 1⟩ (Repeat.DaysOfWeek [])).repeats ≠ Repeat.Never ∧
      (NDate.Valid ⟨2024, 1, 1⟩) ∧
      (Task.set_complete (mkTask ⟨2024, 1, 1⟩ (Repeat.DaysOfWeek []))).2 = none := by
  refine ⟨by decide, by decide, by decide⟩

/-- C2 (amended): for every task with a valid anchor date whose recurrence is
neither Never nor an empty weekday set, set_complete produces a successor
whose date strictly follows the anchor, whose name, recurrence and
description equal the original's, and whose complete flag is false. -/
theorem c2_successor (t : Task) (hv : t.date.Valid) (hr : t.repeats ≠ Repeat.Never)
    (hw : ∀ days, t.repeats = Repeat.DaysOfWeek days → days ≠ []) :
    ∃ s, (t.set_complete).2 = some s ∧ dateLt t.date s.date ∧ s.name = t.name ∧
      s.repeats = t.repeats ∧ s.description = t.description ∧ s.complete = false := by
  cases hrep : t.repeats with
  | Never => exact absurd hrep hr
  | Daily =>
    refine ⟨{ t with date := addDays 1 t.date, complete := false },
      by rw [set_complete_daily hrep], ?_, rfl, hrep, rfl, rfl⟩
    dsimp only
    exact addDays_lt hv 1 (by omega)
  | Weekly =>
    refine ⟨{ t with date := addDays 7 t.date, complete := false },
      by rw [set_complete_weekly hrep], ?_, rfl, hrep, rfl, rfl⟩
    dsimp only
    exact addDays_lt hv 7 (by omega)
  | Monthly =>
    refine ⟨{ t with date := addMonthsClamped t.date 1, complete := false },
      by rw [set_complete_monthly hrep], ?_, rfl, hrep, rfl, rfl⟩
    dsimp only
    exact addMonthsClamped_lt hv 1 (by omega)
  | Yearly =>
    refine ⟨{ t with date := addMonthsClamped t.date 12, complete := false },
      by rw [set_complete_yearly hrep], ?_, rfl, hrep, rfl, rfl⟩
    dsimp only
    exact addMonthsClamped_lt hv 12 (by omega)
  | DaysOfWeek days =>
    have hne : days ≠ [] := hw days hrep
    obtain ⟨w, hwmem⟩ : ∃ w, w ∈ days := by
      cases days with
      | nil => exact absurd rfl hne
      | cons x xs => exact ⟨x, by simp⟩
    obtain ⟨i, hi1, hi2, hiw⟩ := exists_weekday_offset hv w
    cases hsc : scanFrom days t.date 1 7 with
    | none =>
      exfalso
      have hnot := scanFrom_none_forall 7 1 hsc i hi1 (by omega)
      rw [hiw] at hnot
      exact hnot hwmem
    | some r =>
      obtain ⟨k, hk1, hk2, hk3, hk4, hk5⟩ := scanFrom_some_spec 7 1 r hsc
      refine ⟨{ t with date := r, complete := false }, ?_, ?_, rfl, hrep, rfl, rfl⟩
      · rw [set_complete_dow hrep]
        rw [hsc]
        dsimp only [Option.map]
      · dsimp only
        rw [hk3]
        exact addDays_lt hv k (by omega)

/-- C2 witness: the amended theorem at a Daily task anchored Jan 5 2024. -/
theorem c2_witness :
    (NDate.Valid ⟨2024, 1, 5⟩) ∧
      ∃ s, (Task.set_complete (mkTask ⟨2024, 1, 5⟩ Repeat.Daily)).2 = some s ∧
        dateLt ⟨2024, 1, 5⟩ s.date := by
  refine ⟨by decide, ?_⟩
  obtain ⟨s, hs, hlt, -, -, -, -⟩ := c2_successor (mkTask ⟨2024, 1, 5⟩ Repeat.Daily)
    (by decide) (by decide) (fun days h => Repeat.noConfusion h)
  exact ⟨s, hs, hlt⟩

/-- C3 counterexample: anchored on Monday Jan 1 2024 with the weekday set
containing Monday and Tuesday (which contains the anchor's own weekday), the
successor is dated Tuesday Jan 2 2024 — one day later, not exactly seven —
refuting the claim's conjunct that a set containing the anchor's own weekday
yields a date exactly 7 days later. -/
theorem c3_counterexample :
    (NDate.weekday ⟨2024, 1, 1⟩ ∈ [DayOfWeek.Monday, DayOfWeek.Tuesday]) ∧
      ((Task.set_complete (mkTask ⟨2024, 1, 1⟩
          (Repeat.DaysOfWeek [DayOfWeek.Monday, DayOfWeek.Tuesday]))).2.map Task.date) =
        some ⟨2024, 1, 2⟩ ∧
      (⟨2024, 1, 2⟩ : NDate) ≠ addDays 7 ⟨2024, 1, 1⟩ := by
  refine ⟨by decide, by decide, by decide⟩

/-- C3 (amended): for a task with recurrence WeekdaySet(days) and a valid
anchor, any successor returned by set_complete is the first date among
anchor+1 through anchor+7 days, scanned in increasing order, whose weekday
belongs to days (so its weekday is a member of days and no earlier offset
matches); a set containing exactly the anchor's own weekday yields the date
exactly 7 days later; an empty set yields no successor. -/
theorem c3_weekday_scan (t : Task) (days : List DayOfWeek)
    (hr : t.repeats = Repeat.DaysOfWeek days) (hv : t.date.Valid) :
    (∀ s, (t.set_complete).2 = some s →
      ∃ i, 1 ≤ i ∧ i ≤ 7 ∧ s.date = addDays i t.date ∧ s.date.weekday ∈ days ∧
        ∀ j, 1 ≤ j → j < i → (addDays j t.date).weekday ∉ days) ∧
    (∀ i, 1 ≤ i → i ≤ 7 → (addDays i t.date).weekday ∈ days →
      (∀ j, 1 ≤ j → j < i → (addDays j t.date).weekday ∉ days) →
      ((t.set_complete).2.map Task.date) = some (addDays i t.date)) ∧
    (days = [t.date.weekday] →
      ((t.set_complete).2.map Task.date) = some (addDays 7 t.date)) ∧
    (days = [] → (t.set_complete).2 = none) := by
  refine ⟨?_, ?_, ?_, ?_⟩
  · intro s hs
    rw [set_complete_dow hr] at hs
    cases hsc : scanFrom days t.date 1 7 with
    | none =>
      rw [hsc] at hs
      cases hs
    | some r =>
      rw [hsc] at hs
      dsimp only [Option.map] at hs
      obtain ⟨k, hk1, hk2, hk3, hk4, hk5⟩ := scanFrom_some_spec 7 1 r hsc
      have hsdate : s.date = r := by rw [← Option.some.inj hs]
      refine ⟨k, hk1, by omega, by rw [hsdate, hk3], ?_, fun j hj1 hj2 => hk5 j hj1 hj2⟩
      rw [hsdate, hk3]
      exact hk4
  · intro i hi1 hi2 hmem hmin
    have hfirst := scanFrom_first 7 1 i hi1 (by omega) hmem fun j h1 h2 => hmin j h1 h2
    rw [set_complete_dow hr]
    rw [hfirst]
    dsimp only [Option.map]
  · intro hdays
    subst hdays
    have h7 : (addDays 7 t.date).weekday = t.date.weekday := by
      rw [weekday_addDays 7 hv]
      exact numToWeekday_congr (by omega)
    have hmem : (addDays 7 t.date).weekday ∈ [t.date.weekday] := by
      rw [h7]
      exact List.mem_singleton.mpr rfl
    have hmin : ∀ j, 1 ≤ j → j < 7 →
        (addDays j t.date).weekday ∉ [t.date.weekday] := by
      intro j h1 h2 hm
      rw [List.mem_singleton, weekday_addDays j hv] at hm
      exact numToWeekday_ne (a := dayNumber t.date + j) (b := dayNumber t.date)
        (by omega) hm
    have hfirst := scanFrom_first 7 1 7 (by omega) (by omega) hmem hmin
    rw [set_complete_dow hr]
    rw [hfirst]
    dsimp only [Option.map]
  · intro hdays
    subst hdays
    have hnone : scanFrom [] t.date 1 7 = none :=
      forall_scanFrom_none 7 1 (by intro j h1 h2; simp)
    rw [set_complete_dow hr]
    rw [hnone]
    dsimp only [Option.map]

/-- C3 witness: the amended theorem at a Monday anchor with the weekday set
holding exactly the anchor's weekday. -/
theorem c3_witness :
    ((Task.set_complete (mkTask ⟨2024, 1, 1⟩
        (Repeat.DaysOfWeek [DayOfWeek.Monday]))).2.map Task.date) =
      some (addDays 7 ⟨2024, 1, 1⟩) :=
  (c3_weekday_scan (mkTask ⟨2024, 1, 1⟩ (Repeat.DaysOfWeek [DayOfWeek.Monday]))
    [DayOfWeek.Monday] rfl (by decide)).2.2.1 (by decide)

theorem findIncompleteFrom_none_iff (tasks : List Task) (start : Nat) :
    findIncompleteFrom tasks start = none ↔
      ∀ j, start ≤ j → ∀ t, tasks[j]? = some t → t.complete = true := by
  unfold findIncompleteFrom
  rw [scanList_none_iff]
  constructor
  · intro hall j hj t htj
    apply hall t
    rw [List.mem_iff_getElem?]
    refine ⟨j - start, ?_⟩
    rw [List.getElem?_drop]
    have heq : start + (j - start) = j := by omega
    rw [heq]
    exact htj
  · intro hall t ht
    obtain ⟨k, hk⟩ := List.mem_iff_getElem?.mp ht
    rw [List.getElem?_drop] at hk
    exact hall (start + k) (by omega) t hk

theorem findIncompleteFrom_some_spec (tasks : List Task) (start j : Nat)
    (h : findIncompleteFrom tasks start = some j) :
    start ≤ j ∧ (∃ t, tasks[j]? = some t ∧ t.complete = false) ∧
      ∀ m, start ≤ m → m < j → ∀ u, tasks[m]? = some u → u.complete = true := by
  unfold findIncompleteFrom at h
  obtain ⟨k, hk1, hk2, ⟨t, ht1, ht2⟩, hk4⟩ := scanList_some_spec (tasks.drop start) start j h
  rw [List.getElem?_drop] at ht1
  subst hk1
  refine ⟨by omega, ⟨t, ht1, ht2⟩, ?_⟩
  intro m hm1 hm2 u hu
  refine hk4 (m - start) (by omega) u ?_
  rw [List.getElem?_drop]
  have heq : start + (m - start) = m := by omega
  rw [heq]
  exact hu

theorem findIncompleteFrom_first (tasks : List Task) (start k : Nat) (t : Task)
    (hk : start ≤ k) (ht : tasks[k]? = some t) (hinc : t.complete = false)
    (hmin : ∀ m, start ≤ m → m < k → ∀ u, tasks[m]? = some u → u.complete = true) :
    findIncompleteFrom tasks start = some k := by
  unfold findIncompleteFrom
  have hdrop : (tasks.drop start)[k - start]? = some t := by
    rw [List.getElem?_drop]
    have heq : start + (k - start) = k := by omega
    rw [heq]
    exact ht
  have hmin2 : ∀ m, m < k - start → ∀ u, (tasks.drop start)[m]? = some u →
      u.complete = true := by
    intro m hm u hu
    rw [List.getElem?_drop] at hu
    exact hmin (start + m) (by omega) (by omega) u hu
  have hres := scanList_first (tasks.drop start) start (k - start) t hdrop hinc hmin2
  rw [hres]
  congr 1
  omega

theorem moveClosest_some_eq (tasks : List Task) (i : Nat) :
    moveClosest tasks (some i) =
      match findIncompleteFrom tasks i with
      | some k => some k
      | none =>
        match scanBack tasks i with
        | some k => some k
        | none => none := rfl

/-- C4: group_by_day partitions the tasks, in collection order, into maximal
contiguous runs sharing the same calendar day: concatenating the groups in
order restores the original sequence, every group is a nonempty same-day run,
adjacent groups carry different days, and on tasks dated Mon, Mon, Tue, Mon
in that order the result is exactly the three groups Mon-Mon, Tue, Mon. -/
theorem c4_group_by_day :
    (∀ l : List Task, (groupRuns l).flatten = l) ∧
      (∀ l : List Task, ∀ g ∈ groupRuns l,
        g ≠ [] ∧ ∀ x ∈ g, ∀ y ∈ g, x.date = y.date) ∧
      (∀ l : List Task, SepRuns (groupRuns l)) ∧
      groupRuns [taskMonA, taskMonB, taskTueC, taskMonD] =
        [[taskMonA, taskMonB], [taskTueC], [taskMonD]] := by
  refine ⟨groupRuns_flatten, fun l => (groupRuns_groups_sound l).1,
    fun l => (groupRuns_groups_sound l).2, by decide⟩

/-- C4 witness: the grouping facts applied to the first group of the sample
collection. -/
theorem c4_witness :
    ([taskMonA, taskMonB] ≠ ([] : List Task)) ∧ taskMonA.date = taskMonB.date := by
  have hg := c4_group_by_day.2.1 [taskMonA, taskMonB, taskTueC, taskMonD]
    [taskMonA, taskMonB] (by decide)
  exact ⟨hg.1, hg.2 taskMonA (by decide) taskMonB (by decide)⟩

/-- C5: toggling is its own inverse on the complete flag: starting from an
incomplete task, toggling twice returns the flag to false, the second toggle
returns no successor, and set_incomplete never returns a successor, so only
the first toggle can spawn one. -/
theorem c5_toggle_involution (t : Task) (h : t.complete = false) :
    ((t.toggle_complete).1.toggle_complete).1.complete = false ∧
      ((t.toggle_complete).1.toggle_complete).2 = none ∧
      ∀ u : Task, (u.set_incomplete).2 = none := by
  have ht1 : (t.toggle_complete).1 = { t with complete := true } := by
    unfold Task.toggle_complete
    rw [if_neg (by simp [h]), set_complete_fst]
  rw [ht1]
  exact ⟨rfl, rfl, fun u => rfl⟩

/-- C5 witness: the involution applied to a concrete incomplete task. -/
theorem c5_witness :
    (taskMonA.complete = false) ∧
      ((taskMonA.toggle_complete).1.toggle_complete).1.complete = false ∧
      ((taskMonA.toggle_complete).1.toggle_complete).2 = none := by
  have h := c5_toggle_involution taskMonA rfl
  exact ⟨rfl, h.1, h.2.1⟩

/-- C6: get_id aborts (modelled as none) exactly when the id is unset and
otherwise returns exactly the stored identifier, never a sentinel. -/
theorem c6_get_id (t : Task) :
    (t.get_id = none ↔ t.id = none) ∧ (∀ n, t.id = some n → t.get_id = some n) := by
  constructor
  · unfold Task.get_id
    cases t.id <;> simp
  · intro n hn
    unfold Task.get_id
    rw [hn]

/-- C6 witness: get_id on a task holding identifier 1. -/
theorem c6_witness : Task.get_id taskMonA = some 1 :=
  (c6_get_id taskMonA).2 1 rfl

/-- C7: with at least one incomplete task in the collection and any in-range
current index, move_closest lands on the index of an incomplete task — the
first one at or after the current index if any, otherwise the last one
before it — and clears the selection exactly when every task is complete;
on the collection Incomplete, Complete, Incomplete with selection at index 1
it lands on index 0 or 2, never 1. -/
theorem c7_move_closest (tasks : List Task) (i : Nat) (hi : i < tasks.length) :
    (∀ j, moveClosest tasks (some i) = some j →
      ∃ t, tasks[j]? = some t ∧ t.complete = false) ∧
    ((∃ t ∈ tasks, t.complete = false) → moveClosest tasks (some i) ≠ none) ∧
    (moveClosest tasks (some i) = none → ∀ t ∈ tasks, t.complete = true) ∧
    (∀ k t, i ≤ k → tasks[k]? = some t → t.complete = false →
      (∀ m, i ≤ m → m < k → ∀ u, tasks[m]? = some u → u.complete = true) →
      moveClosest tasks (some i) = some k) ∧
    (∀ k t, k < i → tasks[k]? = some t → t.complete = false →
      (∀ m, k < m → m < i → ∀ u, tasks[m]? = some u → u.complete = true) →
      (∀ m, i ≤ m → ∀ u, tasks[m]? = some u → u.complete = true) →
      moveClosest tasks (some i) = some k) ∧
    ((moveClosest [taskMonA, taskComplete, taskMonB] (some 1) = some 0 ∨
      moveClosest [taskMonA, taskComplete, taskMonB] (some 1) = some 2) ∧
      moveClosest [taskMonA, taskComplete, taskMonB] (some 1) ≠ some 1) := by
  have hcompl : moveClosest tasks (some i) = none → ∀ t ∈ tasks, t.complete = true := by
    intro hres t htmem
    rw [moveClosest_some_eq] at hres
    cases hf : findIncompleteFrom tasks i with
    | some k =>
      rw [hf] at hres
      cases hres
    | none =>
      rw [hf] at hres
      dsimp only at hres
      cases hb : scanBack tasks i with
      | some k =>
        rw [hb] at hres
        cases hres
      | none =>
        have hfwd := (findIncompleteFrom_none_iff tasks i).mp hf
        have hbwd := (scanBack_none_iff tasks i).mp hb
        obtain ⟨jx, hjx⟩ := List.mem_iff_getElem?.mp htmem
        by_cases hcase : jx < i
        · exact hbwd jx hcase t hjx
        · exact hfwd jx (by omega) t hjx
  refine ⟨?_, ?_, hcompl, ?_, ?_, by decide⟩
  · intro j hj
    rw [moveClosest_some_eq] at hj
    cases hf : findIncompleteFrom tasks i with
    | some k =>
      rw [hf] at hj
      dsimp only at hj
      obtain ⟨-, ⟨t, ht, htc⟩, -⟩ := findIncompleteFrom_some_spec tasks i k hf
      rw [← Option.some.inj hj]
      exact ⟨t, ht, htc⟩
    | none =>
      rw [hf] at hj
      dsimp only at hj
      cases hb : scanBack tasks i with
      | some k =>
        rw [hb] at hj
        dsimp only at hj
        obtain ⟨-, ⟨t, ht, htc⟩, -⟩ := scanBack_some_spec tasks i k hb
        rw [← Option.some.inj hj]
        exact ⟨t, ht, htc⟩
      | none =>
        rw [hb] at hj
        cases hj
  · rintro ⟨t, htm, hti⟩ hres
    have hc := hcompl hres t htm
    rw [hc] at hti
    cases hti
  · intro k t hk ht hinc hmin
    rw [moveClosest_some_eq]
    have hf := findIncompleteFrom_first tasks i k t hk ht hinc hmin
    rw [hf]
  · intro k t hk ht hinc hmin hall
    rw [moveClosest_some_eq]
    have hf : findIncompleteFrom tasks i = none := by
      rw [findIncompleteFrom_none_iff]
      intro j hj u hu
      exact hall j hj u hu
    rw [hf]
    dsimp only
    have hb := scanBack_first tasks i k t hk ht hinc
      fun m hm1 hm2 u hu => hmin m hm1 hm2 u hu
    rw [hb]

/-- C7 witness: move_closest on the sample Incomplete, Complete, Incomplete
collection with the selection on the hidden middle task. -/
theorem c7_witness :
    moveClosest [taskMonA, taskComplete, taskMonB] (some 1) = some 2 := by
  have h := (c7_move_closest [taskMonA, taskComplete, taskMonB] 1 (by decide)).2.2.2.1
  refine h 2 taskMonB (by omega) (by decide) rfl ?_
  intro m hm1 hm2 u hu
  have hm : m = 1 := by omega
  subst hm
  simp only [List.getElem?_cons_succ, List.getElem?_cons_zero, Option.some.injEq] at hu
  rw [← hu]
  rfl

/-- C8: next and prev never wrap around the collection boundary: for every
collection and visibility policy, at the last visible index next leaves the
selection unchanged, and at the first visible index prev leaves it
unchanged. -/
theorem c8_no_wrap (tasks : List Task) (showHidden : Bool) (i : Nat)
    (hi : i < tasks.length) :
    ((∀ j t, i < j → tasks[j]? = some t →
        (showHidden = true ∨ t.complete = false) → False) →
      nextIdx tasks showHidden (some i) = some i) ∧
    ((∀ j t, j < i → tasks[j]? = some t →
        (showHidden = true ∨ t.complete = false) → False) →
      prevIdx tasks showHidden (some i) = some i) := by
  constructor
  · intro hlast
    unfold nextIdx
    dsimp only
    cases showHidden with
    | true =>
      rw [if_pos rfl]
      have hge : ¬(i + 1 < tasks.length) := by
        intro hlt
        exact hlast (i + 1) (tasks.get ⟨i + 1, hlt⟩) (by omega)
          (List.getElem?_eq_getElem hlt) (Or.inl rfl)
      rw [if_neg hge]
    | false =>
      rw [if_neg (by simp)]
      have hf : findIncompleteFrom tasks (i + 1) = none := by
        rw [findIncompleteFrom_none_iff]
        intro j hj u hu
        by_contra hc
        refine hlast j u (by omega) hu (Or.inr ?_)
        revert hc
        cases u.complete <;> simp
      rw [hf]
  · intro hfirst
    unfold prevIdx
    dsimp only
    by_cases hc : (showHidden = true ∧ 0 < i)
    · exfalso
      have hi1 : i - 1 < tasks.length := by omega
      exact hfirst (i - 1) (tasks.get ⟨i - 1, hi1⟩) (by omega)
        (List.getElem?_eq_getElem hi1) (Or.inl hc.1)
    · rw [if_neg hc]
      have hb : scanBack tasks i = none := by
        rw [scanBack_none_iff]
        intro j hj u hu
        by_contra hcc
        refine hfirst j u hj hu (Or.inr ?_)
        revert hcc
        cases u.complete <;> simp
      rw [hb]

/-- C8 witness: the two no-wrap facts on a collection whose only visible task
under hidden-complete policy is index 0. -/
theorem c8_witness :
    nextIdx [taskMonA, taskComplete] false (some 0) = some 0 ∧
      prevIdx [taskMonA, taskComplete] false (some 0) = some 0 := by
  have h := c8_no_wrap [taskMonA, taskComplete] false 0 (by decide)
  refine ⟨h.1 ?_, h.2 ?_⟩
  · intro j t hj ht hvis
    rcases hvis with hv | hv
    · cases hv
    · have hj1 : j = 1 := by
        by_contra hne
        have h2 : ([taskMonA, taskComplete] : List Task).length ≤ j := by
          simp only [List.length_cons, List.length_nil]
          omega
        rw [List.getElem?_eq_none h2] at ht
        cases ht
      subst hj1
      simp only [List.getElem?_cons_succ, List.getElem?_cons_zero,
        Option.some.injEq] at ht
      rw [← ht] at hv
      exact absurd hv (by decide)
  · intro j t hj ht hvis
    exact absurd hj (by omega)

/-- C9: completing a task never reschedules the original object: set_complete
changes only the receiver's complete flag (set to true), leaving name, date,
repeats, description and id unchanged, and toggle_complete likewise touches
only the complete flag of the receiver; a new date can appear only in the
separately returned successor. -/
theorem c9_frame :
    (∀ t : Task,
      (t.set_complete).1.name = t.name ∧ (t.set_complete).1.date = t.date ∧
        (t.set_complete).1.repeats = t.repeats ∧
        (t.set_complete).1.description = t.description ∧
        (t.set_complete).1.id = t.id ∧ (t.set_complete).1.complete = true) ∧
    (∀ t : Task,
      (t.toggle_complete).1.name = t.name ∧ (t.toggle_complete).1.date = t.date ∧
        (t.toggle_complete).1.repeats = t.repeats ∧
        (t.toggle_complete).1.description = t.description ∧
        (t.toggle_complete).1.id = t.id) := by
  constructor
  · intro t
    rw [set_complete_fst]
    exact ⟨rfl, rfl, rfl, rfl, rfl, rfl⟩
  · intro t
    unfold Task.toggle_complete
    by_cases hc : t.complete
    · rw [if_pos hc]
      exact ⟨rfl, rfl, rfl, rfl, rfl⟩
    · rw [if_neg hc, set_complete_fst]
      exact ⟨rfl, rfl, rfl, rfl, rfl⟩

/-- C10: the successor returned by set_complete carries the original task's
identifier: when the original has id some n and a successor is produced,
the successor's id is also some n, the completed original keeps id some n,
and the two are distinct objects holding the same id. -/
theorem c10_successor_id (t : Task) (n : Nat) (hid : t.id = some n) (s : Task)
    (hs : (t.set_complete).2 = some s) :
    s.id = some n ∧ (t.set_complete).1.id = some n ∧ s ≠ (t.set_complete).1 := by
  have hfields := set_complete_snd_fields hs
  refine ⟨by rw [hfields.1, hid], by rw [set_complete_fst]; exact hid, ?_⟩
  intro he
  have hsc : s.complete = false := hfields.2.2.2.2
  rw [he, set_complete_fst] at hsc
  cases hsc

/-- C10 witness: a Daily task with identifier 1 spawns a successor that still
holds identifier 1 while the completed original also holds it. -/
theorem c10_witness :
    ∃ s, (Task.set_complete (mkTask ⟨2024, 1, 5⟩ Repeat.Daily)).2 = some s ∧
      s.id = some 1 ∧
      (Task.set_complete (mkTask ⟨2024, 1, 5⟩ Repeat.Daily)).1.id = some 1 := by
  have hs : (Task.set_complete (mkTask ⟨2024, 1, 5⟩ Repeat.Daily)).2 =
      some { mkTask ⟨2024, 1, 5⟩ Repeat.Daily with
        date := addDays 1 ⟨2024, 1, 5⟩, complete := false } := by
    rw [set_complete_daily (t := mkTask ⟨2024, 1, 5⟩ Repeat.Daily) rfl]
    rfl
  obtain ⟨h1, h2, -⟩ := c10_successor_id (mkTask ⟨2024, 1, 5⟩ Repeat.Daily) 1 rfl _ hs
  exact ⟨_, hs, h1, h2⟩

example : (addDays 1 ⟨2024, 1, 31⟩) = ⟨2024, 2, 1⟩ := by decide
example : (addDays 1 ⟨2024, 2, 29⟩) = ⟨2024, 3, 1⟩ := by decide
example : (addDays 1 ⟨2023, 2, 28⟩) = ⟨2023, 3, 1⟩ := by decide
example : (addDays 1 ⟨2023, 12, 31⟩) = ⟨2024, 1, 1⟩ := by decide
example : NDate.weekday ⟨2024, 1, 1⟩ = .Monday := by decide
example : NDate.weekday ⟨2023, 1, 31⟩ = .Tuesday := by decide
example : NDate.weekday ⟨2000, 1, 1⟩ = .Saturday := by decide
example : addMonthsClamped ⟨2023, 1, 31⟩ 1 = ⟨2023, 2, 28⟩ := by decide
example : addMonthsClamped ⟨2024, 1, 31⟩ 1 = ⟨2024, 2, 29⟩ := by decide
example : addMonthsClamped ⟨2023, 12, 15⟩ 1 = ⟨2024, 1, 15⟩ := by decide
example : addMonthsClamped ⟨2024, 2, 29⟩ 12 = ⟨2025, 2, 28⟩ := by decide

end Todo
